import Mathlib

/-!
# http-bench: load-generation counters and rank percentiles

A shallow embedding of `http-bench_v1.go`:

* the shared statistics of `main` (`successCount`, `failCount`, `totalTime`,
  `responseTimes`, `minTime`, `maxTime`) and the body of the worker loop;
* the worker goroutines as a step relation in which every shared access happens
  between `mutex.Lock()` and `mutex.Unlock()`;
* `calculatePercentiles`, with the float64 index arithmetic modelled bit-exactly;
* the `Throughput` field of the final report, in float64 arithmetic, and `averageTime`.

Durations are `time.Duration` values (nanoseconds) and counters are Go `int`s;
both are embedded as `Int`, since none of the runs considered here comes near
the 64-bit range.
-/

namespace HttpBench

/-! ## Data model -/

/-- The constant `fiber.StatusOK`. -/
def StatusOK : Int := 200

/-- The constant `fiber.StatusCreated`. -/
def StatusCreated : Int := 201

/-- The constant `time.Second`, in nanoseconds. -/
def Second : Int := 1000000000

/-- The constant `time.Hour`, in nanoseconds. -/
def Hour : Int := 3600 * Second

/-- What one iteration of the worker loop observes: whether `fasthttpClient.Do`
returned an error, the value of `resp.StatusCode()`, and `reqDuration`. -/
structure Outcome where
  err : Bool
  status : Int
  dur : Int
deriving DecidableEq

/-- The statistics variables declared in step 3 of `main`. -/
structure Stats where
  successCount : Int
  failCount : Int
  totalTime : Int
  responseTimes : List Int
  minTime : Int
  maxTime : Int
deriving DecidableEq

/-- Initial values of the statistics variables:
`var minTime, maxTime time.Duration = time.Hour, 0`, everything else zero. -/
def initStats : Stats :=
  { successCount := 0, failCount := 0, totalTime := 0, responseTimes := [],
    minTime := Hour, maxTime := 0 }

/-! ## The worker loop body, run without interruption -/

/-- One iteration of the loop `for j := 0; j < reqPerGoroutine; j++`, from the
point where `reqDuration` is known, on the shared statistics. -/
def handleRequest (httpMethod : String) (o : Outcome) (s : Stats) : Stats :=
  -- totalTime += reqDuration
  let s := { s with totalTime := s.totalTime + o.dur }
  if o.err then
    -- failCount++
    { s with failCount := s.failCount + 1 }
  else
    -- successCount++; responseTimes = append(responseTimes, reqDuration)
    let s := { s with successCount := s.successCount + 1,
                      responseTimes := s.responseTimes ++ [o.dur] }
    let s := if o.dur < s.minTime then { s with minTime := o.dur } else s
    let s := if o.dur > s.maxTime then { s with maxTime := o.dur } else s
    -- switch httpMethod { case "GET": ... }
    let s :=
      if httpMethod = "GET" then
        if o.status ≠ StatusOK then
          { s with failCount := s.failCount + 1, successCount := s.successCount - 1 }
        else s
      else s
    -- if httpMethod == "POST" { ... }
    if httpMethod = "POST" then
      if o.status ≠ StatusOK ∧ o.status ≠ StatusCreated then
        { s with failCount := s.failCount + 1, successCount := s.successCount - 1 }
      else s
    else s

/-- A single worker running its requests one after the other. -/
def runRequests (httpMethod : String) (outcomes : List Outcome) (s : Stats) : Stats :=
  outcomes.foldl (fun acc o => handleRequest httpMethod o acc) s

/-! ## The worker loop as a sequence of critical sections -/

/-- The four `mutex.Lock() ... mutex.Unlock()` blocks of the worker loop. -/
inductive CriticalSection where
  /-- `totalTime += reqDuration`. -/
  | addTime (d : Int)
  /-- `failCount++` on a transport error. -/
  | countFail
  /-- `successCount++`, the append to `responseTimes` and the min/max update. -/
  | countSuccess (d : Int)
  /-- `failCount++; successCount--` after a status code outside the success set. -/
  | correct
deriving DecidableEq

/-- The body of a critical section as a function of the shared statistics. -/
def CriticalSection.run : CriticalSection → Stats → Stats
  | .addTime d, s => { s with totalTime := s.totalTime + d }
  | .countFail, s => { s with failCount := s.failCount + 1 }
  | .countSuccess d, s =>
      let s := { s with successCount := s.successCount + 1,
                        responseTimes := s.responseTimes ++ [d] }
      let s := if d < s.minTime then { s with minTime := d } else s
      if d > s.maxTime then { s with maxTime := d } else s
  | .correct, s => { s with failCount := s.failCount + 1, successCount := s.successCount - 1 }

/-- The critical sections one loop iteration enters, in order. Which ones are
entered depends only on `err`, `httpMethod` and the status code. -/
def requestSections (httpMethod : String) (o : Outcome) : List CriticalSection :=
  CriticalSection.addTime o.dur ::
    (if o.err then [CriticalSection.countFail]
     else
       CriticalSection.countSuccess o.dur ::
         ((if httpMethod = "GET" ∧ o.status ≠ StatusOK then [CriticalSection.correct] else [])
           ++ (if httpMethod = "POST" ∧ (o.status ≠ StatusOK ∧ o.status ≠ StatusCreated)
                 then [CriticalSection.correct] else [])))

/-- All critical sections of one worker goroutine, given the outcomes of its requests. -/
def workerProgram (httpMethod : String) (outcomes : List Outcome) : List CriticalSection :=
  outcomes.flatMap (requestSections httpMethod)

/-- Whether a critical section classifies a request for the first time
(`failCount++` or `successCount++`). -/
def CriticalSection.classifies : CriticalSection → Bool
  | .countFail => true
  | .countSuccess _ => true
  | _ => false

/-! ## Goroutines sharing the statistics under `mutex` -/

/-- Where a worker stands with respect to the critical section at the head of
its remaining program: before `Lock`, holding the lock, having read the shared
variables, having written them back (before `Unlock`). -/
inductive Phase where
  | idle
  | locked
  | loaded
  | stored
deriving DecidableEq

/-- A worker goroutine: its remaining critical sections and the private copy of
the shared variables it last read. -/
structure Worker where
  phase : Phase
  todo : List CriticalSection
  snap : Stats
deriving DecidableEq

/-- The mutex (its holder, if locked), the shared statistics and the goroutines. -/
structure World where
  mutex : Option Nat
  shared : Stats
  workers : List Worker
deriving DecidableEq

/-- One scheduling step of worker `i`. `Lock` succeeds only on a free mutex (a
blocked worker does not move); the body of a critical section is a read of the
shared variables followed, in a later step, by the write of the updated values;
`Unlock` frees the mutex. -/
def stepWorker (i : Nat) (w : World) : World :=
  match w.workers[i]? with
  | none => w
  | some wk =>
    match wk.todo with
    | [] => w
    | sec :: rest =>
      match wk.phase with
      | .idle =>
          if w.mutex = none then
            { w with mutex := some i, workers := w.workers.set i { wk with phase := .locked } }
          else w
      | .locked =>
          { w with workers := w.workers.set i { wk with phase := .loaded, snap := w.shared } }
      | .loaded =>
          { w with shared := sec.run wk.snap,
                   workers := w.workers.set i { wk with phase := .stored } }
      | .stored =>
          { w with mutex := none,
                   workers := w.workers.set i { wk with phase := .idle, todo := rest } }

/-- Run a schedule: the list of worker indices in the order they are given a step. -/
def runSchedule (sched : List Nat) (w : World) : World :=
  sched.foldl (fun acc i => stepWorker i acc) w

/-- Every worker has left its loop (the condition `wg.Wait()` waits for). -/
def finished (w : World) : Bool :=
  w.workers.all (fun wk => wk.todo.isEmpty)

/-- The state right after the `go func()` statements: one idle worker per list
of outcomes, the mutex free. -/
def spawn (httpMethod : String) (outcomes : List (List Outcome)) (s : Stats) : World :=
  { mutex := none, shared := s,
    workers := outcomes.map
      (fun os => { phase := Phase.idle, todo := workerProgram httpMethod os, snap := s }) }

/-- The share of one goroutine: `reqPerGoroutine := totalRequests / concurrency`
(Go integer division truncates toward zero). -/
def reqPerGoroutine (totalRequests concurrency : Int) : Int :=
  Int.tdiv totalRequests concurrency

/-- The world built by step 5 of `main`: `concurrency` goroutines, each looping
`reqPerGoroutine` times; `outcome i j` is what request `j` of goroutine `i` observes. -/
def mainWorld (concurrency totalRequests : Int) (httpMethod : String)
    (outcome : Nat → Nat → Outcome) : World :=
  spawn httpMethod
    ((List.range concurrency.toNat).map
      (fun i => (List.range (reqPerGoroutine totalRequests concurrency).toNat).map (outcome i)))
    initStats

/-! ## Bookkeeping for the goroutine model -/

/-- The sum `successCount + failCount`. -/
def recorded (s : Stats) : Int := s.successCount + s.failCount

/-- Number of first classifications in a list of critical sections. -/
def classifications (l : List CriticalSection) : Nat :=
  l.countP CriticalSection.classifies

/-- First classifications a worker has not yet written to the shared counters. -/
def Worker.pending (wk : Worker) : Nat :=
  match wk.phase with
  | .stored => classifications wk.todo.tail
  | _ => classifications wk.todo

/-- First classifications not yet written, over all workers. -/
def pendingAll (w : World) : Nat := (w.workers.map Worker.pending).sum

/-- Steps of the current critical section a worker has already taken. -/
def Phase.rank : Phase → Nat
  | .idle => 0
  | .locked => 1
  | .loaded => 2
  | .stored => 3

/-- Scheduling steps a worker still needs to leave its loop. -/
def Worker.stepsLeft (wk : Worker) : Nat := 4 * wk.todo.length - wk.phase.rank

/-- Scheduling steps still needed, over all workers. -/
def stepsLeft (w : World) : Nat := (w.workers.map Worker.stepsLeft).sum

/-- The mutex discipline: a worker inside a critical section is the holder of the
mutex, a worker that has read the shared variables still sees their current values,
and a locked mutex is held by a worker inside a critical section. -/
structure MutexInv (w : World) : Prop where
  holder : ∀ (i : Nat) (wk : Worker), w.workers[i]? = some wk → wk.phase ≠ Phase.idle →
    w.mutex = some i ∧ wk.todo ≠ []
  fresh : ∀ (i : Nat) (wk : Worker), w.workers[i]? = some wk → wk.phase = Phase.loaded →
    wk.snap = w.shared
  held : ∀ (i : Nat), w.mutex = some i →
    ∃ wk : Worker, w.workers[i]? = some wk ∧ wk.phase ≠ Phase.idle

/-! ## float64 arithmetic of the percentile indices -/

/-- Number of binary digits of a natural number (the recursion is on fuel). -/
def bitLenAux : Nat → Nat → Nat
  | 0, _ => 0
  | fuel + 1, n => if n = 0 then 0 else bitLenAux fuel (n / 2) + 1

/-- Number of binary digits of `n`. -/
def bitLen (n : Nat) : Nat := bitLenAux n n

/-- The integer nearest to `a / 2 ^ s`, ties to even. -/
def roundHalfEven (a s : Nat) : Nat :=
  let q := a / 2 ^ s
  let r := a % 2 ^ s
  if 2 * r < 2 ^ s then q
  else if 2 ^ s < 2 * r then q + 1
  else if q % 2 = 0 then q else q + 1

/-- Round a natural number to 53 significant bits, to nearest, ties to even:
the float64 nearest to `a`. For any `k`, the float64 nearest to `a / 2 ^ k` is
`f64Round a / 2 ^ k` as long as it is a normal number. -/
def f64Round (a : Nat) : Nat :=
  let s := bitLen a - 53
  roundHalfEven a s * 2 ^ s

/-- The 53-bit significand `m` of the float64 nearest to `num / den`, for a
ratio in `[1/2, 1)`: the constant is `m / 2 ^ 53`. -/
def f64Significand (num den : Nat) : Nat :=
  (2 * num * 2 ^ 53 + den) / (2 * den)

/-- Significand of the float64 constant `0.5`. -/
def sig50 : Nat := f64Significand 1 2

/-- Significand of the float64 constant `0.9`. -/
def sig90 : Nat := f64Significand 9 10

/-- Significand of the float64 constant `0.99`. -/
def sig99 : Nat := f64Significand 99 100

/-- The Go expression `int(float64(n) * c)` for the float64 constant
`c = sig / 2 ^ 53`: convert `n` to float64, multiply in float64 (one rounding),
truncate toward zero. -/
def percentileIndex (sig n : Nat) : Nat :=
  f64Round (f64Round n * sig) / 2 ^ 53

/-- The index `int(float64(len(times)) * 0.5)`. -/
def p50Index (n : Nat) : Nat := percentileIndex sig50 n

/-- The index `int(float64(len(times)) * 0.9)`. -/
def p90Index (n : Nat) : Nat := percentileIndex sig90 n

/-- The index `int(float64(len(times)) * 0.99)`. -/
def p99Index (n : Nat) : Nat := percentileIndex sig99 n

/-! ## calculatePercentiles -/

/-- The slice after `sort.Slice(times, func(i, j int) bool { return times[i] < times[j] })`:
the durations in ascending order. -/
def sortTimes (times : List Int) : List Int :=
  times.insertionSort (fun a b => a ≤ b)

/-- The function `calculatePercentiles`. An index expression out of range
panics in Go; here it yields `none`. -/
def calculatePercentiles (times : List Int) : Option (Int × Int × Int) :=
  if times.length = 0 then
    some (0, 0, 0)
  else
    let sorted := sortTimes times
    match sorted[p50Index times.length]?, sorted[p90Index times.length]?,
          sorted[p99Index times.length]? with
    | some p50, some p90, some p99 => some (p50, p90, p99)
    | _, _, _ => none

/-! ## The final report -/

/-- The integer nearest to a rational, ties to even. -/
def roundRatEven (y : ℚ) : Int :=
  let f := ⌊y⌋
  let r := y - (f : ℚ)
  if 2 * r < 1 then f
  else if 1 < 2 * r then f + 1
  else if f % 2 = 0 then f else f + 1

/-- The binary exponent of a positive rational: `2 ^ binade x ≤ x < 2 ^ (binade x + 1)`. -/
def binade (x : ℚ) : Int :=
  let k : Int := (bitLen x.num.toNat : Int) - (bitLen x.den : Int)
  if (2 : ℚ) ^ k ≤ x then k else k - 1

/-- The float64 nearest to a positive rational: 53 significant bits, round to nearest,
ties to even. The exponent is unbounded, which is exact for every magnitude that
arises from 64-bit integers here (no overflow, no subnormal). -/
def f64PosOfRat (x : ℚ) : ℚ :=
  let e := binade x - 52
  ((roundRatEven (x / (2 : ℚ) ^ e) : Int) : ℚ) * (2 : ℚ) ^ e

/-- The float64 nearest to a rational; a float64 value is represented by the
rational it denotes. -/
def f64OfRat (x : ℚ) : ℚ :=
  if 0 < x then f64PosOfRat x
  else if x < 0 then - f64PosOfRat (-x)
  else 0

/-- The method `Duration.Seconds()` of package `time`:
`sec := d / Second; nsec := d % Second; return float64(sec) + float64(nsec)/1e9`,
with every conversion, the division and the addition rounded to float64. -/
def Seconds (d : Int) : ℚ :=
  f64OfRat (f64OfRat ((Int.tdiv d Second : Int) : ℚ)
    + f64OfRat (f64OfRat ((Int.tmod d Second : Int) : ℚ) / 1000000000))

/-- The field `Throughput: float64(totalRequests) / totalDuration.Seconds()` of
`TestResult`: the conversion and the division are rounded to float64. A zero
duration (a division by zero in float64) is outside this model. -/
def Throughput (totalRequests totalDuration : Int) : ℚ :=
  f64OfRat (f64OfRat (totalRequests : ℚ) / Seconds totalDuration)

/-- The number of requests the goroutines dispatch altogether. -/
def attempted (concurrency totalRequests : Int) : Int :=
  concurrency * reqPerGoroutine totalRequests concurrency

/-- The value `averageTime := totalTime / time.Duration(successCount)`, computed
only under `if successCount > 0`. -/
def averageTime (s : Stats) : Option Int :=
  if s.successCount > 0 then some (Int.tdiv s.totalTime s.successCount) else none

/-! ## Classification of a single request -/

/-- C2: for `httpMethod` GET or POST, one request adds one to `successCount` and leaves
`failCount` alone exactly when there is no transport error and the status code is 200
(GET) or 200/201 (POST); in every other case it adds one to `failCount` and leaves
`successCount` alone. -/
theorem handleRequest_classification (httpMethod : String) (o : Outcome) (s : Stats)
    (hm : httpMethod = "GET" ∨ httpMethod = "POST") :
    (((handleRequest httpMethod o s).successCount = s.successCount + 1 ∧
        (handleRequest httpMethod o s).failCount = s.failCount) ↔
      (o.err = false ∧ ((httpMethod = "GET" ∧ o.status = 200) ∨
        (httpMethod = "POST" ∧ (o.status = 200 ∨ o.status = 201))))) ∧
    (¬ (o.err = false ∧ ((httpMethod = "GET" ∧ o.status = 200) ∨
        (httpMethod = "POST" ∧ (o.status = 200 ∨ o.status = 201)))) →
      (handleRequest httpMethod o s).failCount = s.failCount + 1 ∧
        (handleRequest httpMethod o s).successCount = s.successCount) := by
  have hgp : ¬ ("GET" = "POST") := by decide
  have hpg : ¬ ("POST" = "GET") := by decide
  rcases hm with rfl | rfl
  · cases he : o.err
    · by_cases h200 : o.status = 200
      · simp [handleRequest, he, h200, StatusOK, StatusCreated, hgp]
        split_ifs <;> simp
      · simp [handleRequest, he, h200, StatusOK, StatusCreated, hgp]
        split_ifs <;> simp
    · simp [handleRequest, he]
  · cases he : o.err
    · by_cases h200 : o.status = 200
      · simp [handleRequest, he, h200, StatusOK, StatusCreated, hpg]
        split_ifs <;> simp
      · by_cases h201 : o.status = 201
        · simp [handleRequest, he, h201, StatusOK, StatusCreated, hpg]
          split_ifs <;> simp
        · simp [handleRequest, he, h200, h201, StatusOK, StatusCreated, hpg]
          split_ifs <;> simp
    · simp [handleRequest, he]

theorem handleRequest_classification_witness :
    ("POST" = "GET" ∨ "POST" = "POST") ∧
    ((((handleRequest "POST" { err := false, status := 201, dur := 5 } initStats).successCount
          = initStats.successCount + 1 ∧
        (handleRequest "POST" { err := false, status := 201, dur := 5 } initStats).failCount
          = initStats.failCount) ↔
      (({ err := false, status := 201, dur := 5 } : Outcome).err = false ∧
        (("POST" = "GET" ∧ ({ err := false, status := 201, dur := 5 } : Outcome).status = 200) ∨
        ("POST" = "POST" ∧ (({ err := false, status := 201, dur := 5 } : Outcome).status = 200 ∨
          ({ err := false, status := 201, dur := 5 } : Outcome).status = 201))))) ∧
    (¬ (({ err := false, status := 201, dur := 5 } : Outcome).err = false ∧
        (("POST" = "GET" ∧ ({ err := false, status := 201, dur := 5 } : Outcome).status = 200) ∨
        ("POST" = "POST" ∧ (({ err := false, status := 201, dur := 5 } : Outcome).status = 200 ∨
          ({ err := false, status := 201, dur := 5 } : Outcome).status = 201)))) →
      (handleRequest "POST" { err := false, status := 201, dur := 5 } initStats).failCount
          = initStats.failCount + 1 ∧
        (handleRequest "POST" { err := false, status := 201, dur := 5 } initStats).successCount
          = initStats.successCount)) :=
  ⟨Or.inr rfl,
    handleRequest_classification "POST" { err := false, status := 201, dur := 5 } initStats
      (Or.inr rfl)⟩

/-! ## float64 rounding: error bounds -/

theorem bitLenAux_zero (fuel : Nat) : bitLenAux fuel 0 = 0 := by
  cases fuel <;> simp [bitLenAux]

theorem bitLenAux_spec (fuel : Nat) :
    ∀ n, n ≤ fuel →
      n < 2 ^ bitLenAux fuel n ∧ (n ≠ 0 → 2 ^ (bitLenAux fuel n - 1) ≤ n) := by
  induction fuel with
  | zero =>
      intro n hn
      have h0 : n = 0 := by omega
      subst h0
      simp [bitLenAux]
  | succ fuel ih =>
      intro n hn
      by_cases h0 : n = 0
      · subst h0
        simp [bitLenAux]
      · have hhalf : n / 2 ≤ fuel := by omega
        obtain ⟨hlt, hge⟩ := ih (n / 2) hhalf
        have hdef : bitLenAux (fuel + 1) n = bitLenAux fuel (n / 2) + 1 := by
          simp [bitLenAux, h0]
        rw [hdef]
        refine ⟨?_, fun _ => ?_⟩
        · rw [pow_succ]
          omega
        · simp only [Nat.add_sub_cancel]
          by_cases h2 : n / 2 = 0
          · rw [h2, bitLenAux_zero]
            simp
            omega
          · have hk : bitLenAux fuel (n / 2) ≠ 0 := by
              intro hk
              rw [hk] at hlt
              simp at hlt
              exact h2 hlt
            have hpow : 2 ^ bitLenAux fuel (n / 2) = 2 * 2 ^ (bitLenAux fuel (n / 2) - 1) := by
              rw [← pow_succ']
              congr 1
              omega
            have := hge h2
            omega

theorem lt_two_pow_bitLen (n : Nat) : n < 2 ^ bitLen n :=
  (bitLenAux_spec n n le_rfl).1

theorem two_pow_bitLen_le (n : Nat) (h : n ≠ 0) : 2 ^ (bitLen n - 1) ≤ n :=
  (bitLenAux_spec n n le_rfl).2 h

theorem roundHalfEven_bounds (a s : Nat) :
    2 * (roundHalfEven a s * 2 ^ s) ≤ 2 * a + 2 ^ s ∧
      2 * a ≤ 2 * (roundHalfEven a s * 2 ^ s) + 2 ^ s := by
  have hdm : 2 ^ s * (a / 2 ^ s) + a % 2 ^ s = a := Nat.div_add_mod a (2 ^ s)
  have hpos : 0 < 2 ^ s := Nat.pos_of_ne_zero (by positivity)
  have hr : a % 2 ^ s < 2 ^ s := Nat.mod_lt _ hpos
  have hcomm : 2 ^ s * (a / 2 ^ s) = a / 2 ^ s * 2 ^ s := Nat.mul_comm _ _
  rw [hcomm] at hdm
  unfold roundHalfEven
  simp only
  generalize hx : a / 2 ^ s * 2 ^ s = x at hdm
  split_ifs with h1 h2 h3
  · rw [hx]; omega
  · rw [Nat.add_mul, hx, one_mul]; omega
  · rw [hx]; omega
  · rw [Nat.add_mul, hx, one_mul]; omega

theorem f64Round_bounds (a : Nat) :
    f64Round a * 2 ^ 53 ≤ a * (2 ^ 53 + 1) ∧ a * (2 ^ 53 - 1) ≤ f64Round a * 2 ^ 53 := by
  obtain ⟨hup, hlo⟩ := roundHalfEven_bounds a (bitLen a - 53)
  have hs : 2 ^ (bitLen a - 53) = 1 ∨ 2 ^ (bitLen a - 53) * 2 ^ 52 ≤ a := by
    by_cases h : bitLen a ≤ 53
    · left
      have : bitLen a - 53 = 0 := by omega
      rw [this]; rfl
    · right
      have ha : a ≠ 0 := by
        intro ha
        subst ha
        simp [bitLen, bitLenAux] at h
      have := two_pow_bitLen_le a ha
      have he : bitLen a - 1 = (bitLen a - 53) + 52 := by omega
      rw [he, pow_add] at this
      exact this
  unfold f64Round
  simp only
  generalize roundHalfEven a (bitLen a - 53) * 2 ^ (bitLen a - 53) = F at hup hlo ⊢
  generalize 2 ^ (bitLen a - 53) = P at hup hlo hs
  norm_num at hs ⊢
  omega

/-! ## The percentile indices -/

theorem sig50_eq : sig50 = 4503599627370496 := by decide

theorem sig90_eq : sig90 = 8106479329266893 := by decide

theorem sig99_eq : sig99 = 8917127262193582 := by decide

theorem percentileIndex_lt (sig n : Nat) (hsig : sig ≤ 8917127262193582) (hn : 0 < n) :
    percentileIndex sig n < n := by
  unfold percentileIndex
  rw [Nat.div_lt_iff_lt_mul (by positivity)]
  obtain ⟨h1, _⟩ := f64Round_bounds (f64Round n * sig)
  obtain ⟨h2, _⟩ := f64Round_bounds n
  have h3 : f64Round n * sig ≤ f64Round n * 8917127262193582 := Nat.mul_le_mul_left _ hsig
  generalize f64Round (f64Round n * sig) = FX at h1 ⊢
  generalize f64Round n * sig = X at h1 h3
  generalize f64Round n = Fn at h2 h3
  norm_num at h1 h2 ⊢
  omega

theorem percentileIndex_mono (sig1 sig2 n : Nat)
    (h : sig1 * (2 ^ 53 + 1) ≤ sig2 * (2 ^ 53 - 1)) :
    percentileIndex sig1 n ≤ percentileIndex sig2 n := by
  unfold percentileIndex
  apply Nat.div_le_div_right
  obtain ⟨h1, _⟩ := f64Round_bounds (f64Round n * sig1)
  obtain ⟨_, h2⟩ := f64Round_bounds (f64Round n * sig2)
  have h3 : f64Round n * sig1 * (2 ^ 53 + 1) ≤ f64Round n * sig2 * (2 ^ 53 - 1) := by
    rw [Nat.mul_assoc, Nat.mul_assoc]
    exact Nat.mul_le_mul_left _ h
  have h4 := le_trans (le_trans h1 h3) h2
  exact Nat.le_of_mul_le_mul_right h4 (by positivity)

theorem p50Index_lt (n : Nat) (hn : 0 < n) : p50Index n < n :=
  percentileIndex_lt sig50 n (by rw [sig50_eq]; decide) hn

theorem p90Index_lt (n : Nat) (hn : 0 < n) : p90Index n < n :=
  percentileIndex_lt sig90 n (by rw [sig90_eq]; decide) hn

theorem p99Index_lt (n : Nat) (hn : 0 < n) : p99Index n < n :=
  percentileIndex_lt sig99 n (by rw [sig99_eq]) hn

theorem p50Index_le_p90Index (n : Nat) : p50Index n ≤ p90Index n :=
  percentileIndex_mono sig50 sig90 n (by rw [sig50_eq, sig90_eq]; decide)

theorem p90Index_le_p99Index (n : Nat) : p90Index n ≤ p99Index n :=
  percentileIndex_mono sig90 sig99 n (by rw [sig90_eq, sig99_eq]; decide)

/-! ## calculatePercentiles -/

theorem length_sortTimes (times : List Int) : (sortTimes times).length = times.length :=
  List.length_insertionSort _ times

theorem sorted_sortTimes (times : List Int) :
    List.Sorted (fun a b : Int => a ≤ b) (sortTimes times) :=
  List.sorted_insertionSort _ times

theorem mem_sortTimes (times : List Int) (x : Int) : x ∈ sortTimes times ↔ x ∈ times :=
  (List.perm_insertionSort _ times).mem_iff

theorem sortTimes_getElem?_le (times : List Int) (i j : Nat) (a b : Int) (hij : i ≤ j)
    (ha : (sortTimes times)[i]? = some a) (hb : (sortTimes times)[j]? = some b) : a ≤ b := by
  obtain ⟨hi, rfl⟩ := List.getElem?_eq_some.mp ha
  obtain ⟨hj, rfl⟩ := List.getElem?_eq_some.mp hb
  rcases Nat.eq_or_lt_of_le hij with rfl | hlt
  · exact le_rfl
  · exact List.pairwise_iff_getElem.mp (sorted_sortTimes times) i j hi hj hlt

theorem getElem?_some_of_lt (l : List Int) (i : Nat) (h : i < l.length) :
    ∃ p, l[i]? = some p :=
  ⟨l[i], List.getElem?_eq_getElem h⟩

/-- On a non-empty slice the three index expressions are in range, and the
function returns the three selected elements of the sorted slice. -/
theorem calculatePercentiles_eq (times : List Int) (h : times ≠ []) :
    ∃ p50 p90 p99,
      (sortTimes times)[p50Index times.length]? = some p50 ∧
      (sortTimes times)[p90Index times.length]? = some p90 ∧
      (sortTimes times)[p99Index times.length]? = some p99 ∧
      calculatePercentiles times = some (p50, p90, p99) := by
  have hn : 0 < times.length := List.length_pos.mpr h
  have h50 : p50Index times.length < (sortTimes times).length := by
    rw [length_sortTimes]; exact p50Index_lt _ hn
  have h90 : p90Index times.length < (sortTimes times).length := by
    rw [length_sortTimes]; exact p90Index_lt _ hn
  have h99 : p99Index times.length < (sortTimes times).length := by
    rw [length_sortTimes]; exact p99Index_lt _ hn
  obtain ⟨p50, e50⟩ := getElem?_some_of_lt _ _ h50
  obtain ⟨p90, e90⟩ := getElem?_some_of_lt _ _ h90
  obtain ⟨p99, e99⟩ := getElem?_some_of_lt _ _ h99
  refine ⟨p50, p90, p99, e50, e90, e99, ?_⟩
  unfold calculatePercentiles
  rw [if_neg (by omega)]
  simp only [e50, e90, e99]

theorem exists_smallest_largest (times : List Int) (h : times ≠ []) :
    ∃ lo ∈ times, ∃ hi ∈ times, ∀ x ∈ times, lo ≤ x ∧ x ≤ hi := by
  have hne : times.toFinset.Nonempty := by
    obtain ⟨x, hx⟩ := List.exists_mem_of_ne_nil times h
    exact ⟨x, List.mem_toFinset.mpr hx⟩
  obtain ⟨lo, hlo, hmin⟩ := Finset.exists_min_image times.toFinset id hne
  obtain ⟨hi, hhi, hmax⟩ := Finset.exists_max_image times.toFinset id hne
  refine ⟨lo, List.mem_toFinset.mp hlo, hi, List.mem_toFinset.mp hhi, fun x hx => ?_⟩
  exact ⟨hmin x (List.mem_toFinset.mpr hx), hmax x (List.mem_toFinset.mpr hx)⟩

/-- C4: for a non-empty sample sequence of length n, the three indices
`int(float64(n) * 0.5)`, `int(float64(n) * 0.9)` and `int(float64(n) * 0.99)` are at most
`n - 1`, so `calculatePercentiles` selects p50, p90 and p99 without an out-of-range read. -/
theorem calculatePercentiles_indices_in_range (times : List Int) (h : times ≠ []) :
    p50Index times.length ≤ times.length - 1 ∧
    p90Index times.length ≤ times.length - 1 ∧
    p99Index times.length ≤ times.length - 1 ∧
    (calculatePercentiles times).isSome = true := by
  have hn : 0 < times.length := List.length_pos.mpr h
  have h50 := p50Index_lt _ hn
  have h90 := p90Index_lt _ hn
  have h99 := p99Index_lt _ hn
  obtain ⟨p50, p90, p99, _, _, _, hc⟩ := calculatePercentiles_eq times h
  refine ⟨by omega, by omega, by omega, ?_⟩
  rw [hc]
  rfl

theorem calculatePercentiles_indices_in_range_witness :
    ([30, 10, 20] : List Int) ≠ [] ∧
    (p50Index ([30, 10, 20] : List Int).length ≤ ([30, 10, 20] : List Int).length - 1 ∧
     p90Index ([30, 10, 20] : List Int).length ≤ ([30, 10, 20] : List Int).length - 1 ∧
     p99Index ([30, 10, 20] : List Int).length ≤ ([30, 10, 20] : List Int).length - 1 ∧
     (calculatePercentiles [30, 10, 20]).isSome = true) :=
  ⟨by decide, calculatePercentiles_indices_in_range [30, 10, 20] (by decide)⟩

/-- C5: on a non-empty sequence of durations, in any order, `calculatePercentiles`
returns three values with p50 ≤ p90 ≤ p99. -/
theorem calculatePercentiles_monotone (times : List Int) (h : times ≠ []) :
    ∃ p50 p90 p99, calculatePercentiles times = some (p50, p90, p99) ∧
      p50 ≤ p90 ∧ p90 ≤ p99 := by
  obtain ⟨p50, p90, p99, e50, e90, e99, hc⟩ := calculatePercentiles_eq times h
  exact ⟨p50, p90, p99, hc,
    sortTimes_getElem?_le times _ _ p50 p90 (p50Index_le_p90Index _) e50 e90,
    sortTimes_getElem?_le times _ _ p90 p99 (p90Index_le_p99Index _) e90 e99⟩

theorem calculatePercentiles_monotone_witness :
    ([30, 10, 20, 50, 40] : List Int) ≠ [] ∧
    ∃ p50 p90 p99, calculatePercentiles [30, 10, 20, 50, 40] = some (p50, p90, p99) ∧
      p50 ≤ p90 ∧ p90 ≤ p99 :=
  ⟨by decide, calculatePercentiles_monotone [30, 10, 20, 50, 40] (by decide)⟩

/-- C6: on a non-empty sequence of durations, each of p50, p90 and p99 returned by
`calculatePercentiles` is an element of the input, hence lies between the smallest and
the largest input duration; on a one-element sequence all three are that element. -/
theorem calculatePercentiles_selects_inputs (times : List Int) (h : times ≠ []) :
    ∃ p50 p90 p99, calculatePercentiles times = some (p50, p90, p99) ∧
      p50 ∈ times ∧ p90 ∈ times ∧ p99 ∈ times ∧
      (∃ lo ∈ times, ∃ hi ∈ times, (∀ x ∈ times, lo ≤ x ∧ x ≤ hi) ∧
        lo ≤ p50 ∧ p50 ≤ hi ∧ lo ≤ p90 ∧ p90 ≤ hi ∧ lo ≤ p99 ∧ p99 ≤ hi) ∧
      (∀ d, times = [d] → p50 = d ∧ p90 = d ∧ p99 = d) := by
  obtain ⟨p50, p90, p99, e50, e90, e99, hc⟩ := calculatePercentiles_eq times h
  have m50 : p50 ∈ times := (mem_sortTimes times p50).mp (List.getElem?_mem e50)
  have m90 : p90 ∈ times := (mem_sortTimes times p90).mp (List.getElem?_mem e90)
  have m99 : p99 ∈ times := (mem_sortTimes times p99).mp (List.getElem?_mem e99)
  obtain ⟨lo, hlo, hi, hhi, hb⟩ := exists_smallest_largest times h
  refine ⟨p50, p90, p99, hc, m50, m90, m99,
    ⟨lo, hlo, hi, hhi, hb, (hb p50 m50).1, (hb p50 m50).2, (hb p90 m90).1, (hb p90 m90).2,
      (hb p99 m99).1, (hb p99 m99).2⟩, ?_⟩
  intro d hd
  subst hd
  simp only [List.mem_singleton] at m50 m90 m99
  exact ⟨m50, m90, m99⟩

theorem calculatePercentiles_selects_inputs_witness :
    ([7] : List Int) ≠ [] ∧
    ∃ p50 p90 p99, calculatePercentiles [7] = some (p50, p90, p99) ∧
      p50 ∈ ([7] : List Int) ∧ p90 ∈ ([7] : List Int) ∧ p99 ∈ ([7] : List Int) ∧
      (∃ lo ∈ ([7] : List Int), ∃ hi ∈ ([7] : List Int),
        (∀ x ∈ ([7] : List Int), lo ≤ x ∧ x ≤ hi) ∧
        lo ≤ p50 ∧ p50 ≤ hi ∧ lo ≤ p90 ∧ p90 ≤ hi ∧ lo ≤ p99 ∧ p99 ≤ hi) ∧
      (∀ d, ([7] : List Int) = [d] → p50 = d ∧ p90 = d ∧ p99 = d) :=
  ⟨by decide, calculatePercentiles_selects_inputs [7] (by decide)⟩

/-- C8: on an empty sequence `calculatePercentiles` takes the early return and yields
`(0, 0, 0)`; no element of the sequence is read. -/
theorem calculatePercentiles_empty : calculatePercentiles [] = some (0, 0, 0) := by
  rfl

/-! ## The final report -/

theorem attempted_eq_iff_dvd (concurrency totalRequests : Int) (hc : 0 < concurrency)
    (ht : 0 < totalRequests) :
    attempted concurrency totalRequests = totalRequests ↔ concurrency ∣ totalRequests := by
  unfold attempted reqPerGoroutine
  rw [Int.tdiv_eq_ediv (le_of_lt ht) (le_of_lt hc)]
  constructor
  · intro h
    exact Dvd.intro _ h
  · intro h
    exact Int.mul_ediv_cancel' h

/-! ## float64 rounding of rationals: error bounds -/

theorem roundRatEven_error (y : ℚ) : |((roundRatEven y : Int) : ℚ) - y| ≤ 1 / 2 := by
  have h1 : ((⌊y⌋ : Int) : ℚ) ≤ y := Int.floor_le y
  have h2 : y < ((⌊y⌋ : Int) : ℚ) + 1 := Int.lt_floor_add_one y
  unfold roundRatEven
  simp only
  rw [abs_le]
  split_ifs with a b c <;> push_cast <;> constructor <;> linarith

theorem roundRatEven_intCast (z : Int) : roundRatEven (z : ℚ) = z := by
  unfold roundRatEven
  simp

theorem two_zpow_binade_le (x : ℚ) (hx : 0 < x) : (2 : ℚ) ^ binade x ≤ x := by
  unfold binade
  simp only
  split_ifs with h
  · exact h
  · have hnum : 0 < x.num := Rat.num_pos.mpr hx
    have hp0 : x.num.toNat ≠ 0 := by omega
    have h1 : 2 ^ (bitLen x.num.toNat - 1) ≤ x.num.toNat := two_pow_bitLen_le _ hp0
    have h2 : x.den < 2 ^ bitLen x.den := lt_two_pow_bitLen _
    have hb : bitLen x.num.toNat ≠ 0 := by
      intro hb
      have := lt_two_pow_bitLen x.num.toNat
      rw [hb] at this
      omega
    have hcast : ((x.num.toNat : Nat) : ℚ) = (x.num : ℚ) := by
      have : ((x.num.toNat : Nat) : Int) = x.num := Int.toNat_of_nonneg (le_of_lt hnum)
      exact_mod_cast congrArg (fun z : Int => (z : ℚ)) this
    have hxeq : (x.num.toNat : ℚ) / (x.den : ℚ) = x := by
      rw [hcast]
      exact Rat.num_div_den x
    have e : (bitLen x.num.toNat : Int) - (bitLen x.den : Int) - 1
        = ((bitLen x.num.toNat - 1 : Nat) : Int) - ((bitLen x.den : Nat) : Int) := by omega
    rw [e, zpow_sub₀ (two_ne_zero), zpow_natCast, zpow_natCast]
    have h1q : (2 : ℚ) ^ (bitLen x.num.toNat - 1) ≤ (x.num.toNat : ℚ) := by exact_mod_cast h1
    have h2q : (x.den : ℚ) ≤ (2 : ℚ) ^ bitLen x.den := by exact_mod_cast le_of_lt h2
    have hden : (0 : ℚ) < (x.den : ℚ) := by exact_mod_cast x.den_pos
    calc (2 : ℚ) ^ (bitLen x.num.toNat - 1) / 2 ^ bitLen x.den
        ≤ (x.num.toNat : ℚ) / (x.den : ℚ) :=
          div_le_div₀ (Nat.cast_nonneg _) h1q hden h2q
      _ = x := hxeq

theorem f64PosOfRat_error (x : ℚ) (hx : 0 < x) : |f64PosOfRat x - x| ≤ x / 2 ^ 53 := by
  unfold f64PosOfRat
  simp only
  have hs : (0 : ℚ) < 2 ^ (binade x - 52) := zpow_pos (by norm_num) _
  have hle : (2 : ℚ) ^ (binade x - 52) * 2 ^ 52 ≤ x := by
    have h := two_zpow_binade_le x hx
    have e : (2 : ℚ) ^ (binade x - 52) * 2 ^ 52 = 2 ^ binade x := by
      rw [← zpow_natCast (2 : ℚ) 52, ← zpow_add₀ (two_ne_zero)]
      congr 1
      omega
    rw [e]
    exact h
  have herr := roundRatEven_error (x / 2 ^ (binade x - 52))
  generalize (2 : ℚ) ^ (binade x - 52) = s at hs hle herr ⊢
  generalize ((roundRatEven (x / s) : Int) : ℚ) = m at herr ⊢
  have hrw : m * s - x = (m - x / s) * s := by
    field_simp
  rw [hrw, abs_mul, abs_of_pos hs]
  have h1 : |m - x / s| * s ≤ 1 / 2 * s := mul_le_mul_of_nonneg_right herr (le_of_lt hs)
  have h2 : 1 / 2 * s ≤ x / 2 ^ 53 := by
    rw [le_div_iff₀ (by positivity)]
    norm_num at hle ⊢
    linarith
  exact le_trans h1 h2

theorem f64OfRat_bounds (x : ℚ) (hx : 0 ≤ x) :
    x * (1 - 1 / 2 ^ 53) ≤ f64OfRat x ∧ f64OfRat x ≤ x * (1 + 1 / 2 ^ 53) := by
  rcases eq_or_lt_of_le hx with h0 | hpos
  · subst h0
    simp [f64OfRat]
  · have h := f64PosOfRat_error x hpos
    rw [abs_le] at h
    unfold f64OfRat
    rw [if_pos hpos]
    constructor <;> linarith [h.1, h.2]

theorem f64OfRat_natCast (n : Nat) (h : n < 2 ^ 53) : f64OfRat (n : ℚ) = n := by
  rcases Nat.eq_zero_or_pos n with h0 | hpos
  · subst h0
    simp [f64OfRat]
  · have hq : (0 : ℚ) < (n : ℚ) := by exact_mod_cast hpos
    unfold f64OfRat
    rw [if_pos hq]
    unfold f64PosOfRat
    simp only
    have hL : binade (n : ℚ) ≤ 52 := by
      by_contra hcon
      have h53 : (53 : Int) ≤ binade (n : ℚ) := by omega
      have h1 := two_zpow_binade_le (n : ℚ) hq
      have h2 : (2 : ℚ) ^ (53 : Int) ≤ 2 ^ binade (n : ℚ) :=
        zpow_le_zpow_right₀ (by norm_num) h53
      have h3 : (n : ℚ) < 2 ^ (53 : Int) := by
        rw [zpow_ofNat]
        exact_mod_cast h
      linarith
    obtain ⟨j, hj⟩ : ∃ j : Nat, binade (n : ℚ) - 52 = -(j : Int) :=
      ⟨(52 - binade (n : ℚ)).toNat, by omega⟩
    rw [hj, zpow_neg, zpow_natCast]
    have hpow : (0 : ℚ) < 2 ^ j := by positivity
    have hint : (n : ℚ) / ((2 : ℚ) ^ j)⁻¹ = (((n * 2 ^ j : Nat) : Int) : ℚ) := by
      push_cast
      field_simp
    rw [hint, roundRatEven_intCast]
    push_cast
    field_simp
theorem Seconds_bounds (d : Int) (hd : 0 < d) :
    ((d : ℚ) / 1000000000) * (1 - 1 / 2 ^ 53) ^ 3 ≤ Seconds d ∧
      Seconds d ≤ ((d : ℚ) / 1000000000) * (1 + 1 / 2 ^ 53) ^ 3 := by
  have hsec : (0 : Int) ≤ Int.tdiv d Second := by
    rw [Int.tdiv_eq_ediv (le_of_lt hd) (by decide)]
    exact Int.ediv_nonneg (le_of_lt hd) (by decide)
  have hnsec : (0 : Int) ≤ Int.tmod d Second := by
    rw [Int.tmod_eq_emod (le_of_lt hd) (by decide)]
    exact Int.emod_nonneg d (by decide)
  have hsplit : Second * Int.tdiv d Second + Int.tmod d Second = d := Int.tdiv_add_tmod d Second
  have hsecq : (0 : ℚ) ≤ ((Int.tdiv d Second : Int) : ℚ) := by exact_mod_cast hsec
  have hnsecq : (0 : ℚ) ≤ ((Int.tmod d Second : Int) : ℚ) := by exact_mod_cast hnsec
  have hsplitq : (1000000000 : ℚ) * ((Int.tdiv d Second : Int) : ℚ)
      + ((Int.tmod d Second : Int) : ℚ) = (d : ℚ) := by
    have := congrArg (fun z : Int => (z : ℚ)) hsplit
    simp only [Second] at this
    push_cast at this
    exact this
  obtain ⟨hA1, hA2⟩ := f64OfRat_bounds _ hsecq
  obtain ⟨hN1, hN2⟩ := f64OfRat_bounds _ hnsecq
  have hN0 : (0 : ℚ) ≤ f64OfRat ((Int.tmod d Second : Int) : ℚ) := by
    refine le_trans ?_ hN1
    exact mul_nonneg hnsecq (by norm_num)
  have hA0 : (0 : ℚ) ≤ f64OfRat ((Int.tdiv d Second : Int) : ℚ) := by
    refine le_trans ?_ hA1
    exact mul_nonneg hsecq (by norm_num)
  have hB0' : (0 : ℚ) ≤ f64OfRat ((Int.tmod d Second : Int) : ℚ) / 1000000000 :=
    div_nonneg hN0 (by norm_num)
  obtain ⟨hB1, hB2⟩ := f64OfRat_bounds _ hB0'
  have hB0 : (0 : ℚ) ≤ f64OfRat (f64OfRat ((Int.tmod d Second : Int) : ℚ) / 1000000000) := by
    refine le_trans ?_ hB1
    exact mul_nonneg hB0' (by norm_num)
  obtain ⟨hS1, hS2⟩ := f64OfRat_bounds _ (add_nonneg hA0 hB0)
  unfold Seconds
  generalize f64OfRat (f64OfRat ((Int.tdiv d Second : Int) : ℚ)
    + f64OfRat (f64OfRat ((Int.tmod d Second : Int) : ℚ) / 1000000000)) = S at hS1 hS2 ⊢
  generalize f64OfRat (f64OfRat ((Int.tmod d Second : Int) : ℚ) / 1000000000) = B
    at hB1 hB2 hB0 hS1 hS2
  generalize f64OfRat ((Int.tmod d Second : Int) : ℚ) = N at hN1 hN2 hN0 hB0' hB1 hB2
  generalize f64OfRat ((Int.tdiv d Second : Int) : ℚ) = A at hA1 hA2 hA0 hS1 hS2
  generalize ((Int.tdiv d Second : Int) : ℚ) = sec at hsecq hsplitq hA1 hA2
  generalize ((Int.tmod d Second : Int) : ℚ) = nsec at hnsecq hsplitq hN1 hN2
  rw [← hsplitq]
  norm_num at hA1 hA2 hN1 hN2 hB1 hB2 hS1 hS2 ⊢
  constructor <;> linarith

theorem Throughput_bounds (t d : Int) (ht : 0 < t) (hd : 0 < d) :
    ((t : ℚ) / ((d : ℚ) / 1000000000)) * (1 - 1 / 2 ^ 50) ≤ Throughput t d ∧
      Throughput t d ≤ ((t : ℚ) / ((d : ℚ) / 1000000000)) * (1 + 1 / 2 ^ 50) := by
  obtain ⟨hS1, hS2⟩ := Seconds_bounds d hd
  have hdq : (0 : ℚ) < (d : ℚ) := by exact_mod_cast hd
  have htq : (0 : ℚ) < (t : ℚ) := by exact_mod_cast ht
  have hX : (0 : ℚ) < (d : ℚ) / 1000000000 := div_pos hdq (by norm_num)
  have hSpos : 0 < Seconds d :=
    lt_of_lt_of_le (mul_pos hX (by norm_num)) hS1
  obtain ⟨hT1, hT2⟩ := f64OfRat_bounds (t : ℚ) (le_of_lt htq)
  have hTpos : 0 < f64OfRat (t : ℚ) :=
    lt_of_lt_of_le (mul_pos htq (by norm_num)) hT1
  obtain ⟨hQ1, hQ2⟩ := f64OfRat_bounds _ (le_of_lt (div_pos hTpos hSpos))
  have hR : (0 : ℚ) < (t : ℚ) / ((d : ℚ) / 1000000000) := div_pos htq hX
  have hRX : (t : ℚ) / ((d : ℚ) / 1000000000) * ((d : ℚ) / 1000000000) = (t : ℚ) :=
    div_mul_cancel₀ _ (ne_of_gt hX)
  unfold Throughput
  generalize f64OfRat (f64OfRat (t : ℚ) / Seconds d) = Th at hQ1 hQ2 ⊢
  generalize f64OfRat (t : ℚ) = T at hT1 hT2 hTpos hQ1 hQ2
  generalize Seconds d = S at hS1 hS2 hSpos hQ1 hQ2
  generalize (d : ℚ) / 1000000000 = X at hX hS1 hS2 hR hRX ⊢
  generalize hRdef : (t : ℚ) / X = R at hR hRX ⊢
  -- the quotient T / S against R
  have hQu : T / S ≤ R * ((1 + 1 / 2 ^ 53) / (1 - 1 / 2 ^ 53) ^ 3) := by
    rw [div_le_iff₀ hSpos]
    have hc : (0 : ℚ) ≤ R * ((1 + 1 / 2 ^ 53) / (1 - 1 / 2 ^ 53) ^ 3) :=
      mul_nonneg (le_of_lt hR) (by norm_num)
    have h1 := mul_le_mul_of_nonneg_left hS1 hc
    have h2 : R * ((1 + 1 / 2 ^ 53) / (1 - 1 / 2 ^ 53) ^ 3) * (X * (1 - 1 / 2 ^ 53) ^ 3)
        = (R * X) * (1 + 1 / 2 ^ 53) := by
      field_simp
      ring
    rw [h2, hRX] at h1
    exact le_trans hT2 h1
  have hQl : R * ((1 - 1 / 2 ^ 53) / (1 + 1 / 2 ^ 53) ^ 3) ≤ T / S := by
    rw [le_div_iff₀ hSpos]
    have hc : (0 : ℚ) ≤ R * ((1 - 1 / 2 ^ 53) / (1 + 1 / 2 ^ 53) ^ 3) :=
      mul_nonneg (le_of_lt hR) (by norm_num)
    have h1 := mul_le_mul_of_nonneg_left hS2 hc
    have h2 : R * ((1 - 1 / 2 ^ 53) / (1 + 1 / 2 ^ 53) ^ 3) * (X * (1 + 1 / 2 ^ 53) ^ 3)
        = (R * X) * (1 - 1 / 2 ^ 53) := by
      field_simp
      ring
    rw [h2, hRX] at h1
    exact le_trans h1 hT1
  generalize T / S = Q at hQ1 hQ2 hQu hQl
  norm_num at hQ1 hQ2 hQu hQl ⊢
  constructor <;> nlinarith
theorem Seconds_one_second : Seconds 1000000000 = 1 := by
  have h1 : Int.tdiv 1000000000 Second = 1 := by decide
  have h0 : Int.tmod 1000000000 Second = 0 := by decide
  have e1 : f64OfRat (1 : ℚ) = 1 := by
    have := f64OfRat_natCast 1 (by norm_num)
    simpa using this
  have e0 : f64OfRat (0 : ℚ) = 0 := by
    simp [f64OfRat]
  unfold Seconds
  rw [h1, h0]
  simp only [Int.cast_one, Int.cast_zero, e0, zero_div, add_zero, e1]

theorem attempted_lt_of_not_dvd (concurrency totalRequests : Int) (hc : 0 < concurrency)
    (ht : 0 < totalRequests) (h : ¬ concurrency ∣ totalRequests) :
    attempted concurrency totalRequests < totalRequests := by
  have hle : attempted concurrency totalRequests ≤ totalRequests := by
    unfold attempted reqPerGoroutine
    rw [Int.tdiv_eq_ediv (le_of_lt ht) (le_of_lt hc)]
    exact Int.mul_ediv_self_le (ne_of_gt hc)
  exact lt_of_le_of_ne hle
    (fun heq => h ((attempted_eq_iff_dvd concurrency totalRequests hc ht).mp heq))

/-- C7, as stated, fails: with concurrency 3, totalRequests 100 and a run of one second,
99 requests are attempted, and the reported throughput is 100 per second. -/
theorem throughput_not_attempted :
    (0 : Int) < 3 ∧ (0 : Int) < 100 ∧ (0 : Int) < 1000000000 ∧
    attempted 3 100 = 99 ∧
    Throughput 100 1000000000 = 100 ∧
    ((attempted 3 100 : Int) : ℚ) / Seconds 1000000000 = 99 ∧
    Throughput 100 1000000000 ≠ ((attempted 3 100 : Int) : ℚ) / Seconds 1000000000 := by
  have ha : attempted 3 100 = 99 := by decide
  have e100 : f64OfRat (100 : ℚ) = 100 := by
    have := f64OfRat_natCast 100 (by norm_num)
    simpa using this
  have h1 : Throughput 100 1000000000 = 100 := by
    unfold Throughput
    rw [Seconds_one_second]
    simp only [Int.cast_ofNat, div_one, e100]
  have h2 : ((attempted 3 100 : Int) : ℚ) / Seconds 1000000000 = 99 := by
    rw [ha, Seconds_one_second]
    norm_num
  refine ⟨by decide, by decide, by decide, ha, h1, h2, ?_⟩
  rw [h1, h2]
  norm_num

/-- C7, amended: for positive concurrency, positive totalRequests and a positive total
duration, the reported throughput is the configured totalRequests divided by the total
duration in seconds, computed in float64 (within a relative error of 2^-50 of the exact
quotient). It is the value computed from the attempted count
`concurrency * (totalRequests / concurrency)` whenever concurrency divides totalRequests;
otherwise the attempted count is strictly smaller than the configured total. -/
theorem throughput_configured_total (concurrency totalRequests totalDuration : Int)
    (hc : 0 < concurrency) (ht : 0 < totalRequests) (hd : 0 < totalDuration) :
    |Throughput totalRequests totalDuration
        - (totalRequests : ℚ) / ((totalDuration : ℚ) / 1000000000)|
      ≤ ((totalRequests : ℚ) / ((totalDuration : ℚ) / 1000000000)) / 2 ^ 50 ∧
    (concurrency ∣ totalRequests →
      Throughput totalRequests totalDuration
        = Throughput (attempted concurrency totalRequests) totalDuration) ∧
    (¬ concurrency ∣ totalRequests →
      attempted concurrency totalRequests < totalRequests) := by
  obtain ⟨hlo, hhi⟩ := Throughput_bounds totalRequests totalDuration ht hd
  refine ⟨?_, ?_, attempted_lt_of_not_dvd concurrency totalRequests hc ht⟩
  · rw [abs_le]
    constructor <;> linarith
  · intro h
    rw [(attempted_eq_iff_dvd concurrency totalRequests hc ht).mpr h]

theorem throughput_configured_total_witness :
    (0 : Int) < 4 ∧ (0 : Int) < 100 ∧ (0 : Int) < 2000000000 ∧
    (|Throughput 100 2000000000 - ((100 : Int) : ℚ) / (((2000000000 : Int) : ℚ) / 1000000000)|
      ≤ (((100 : Int) : ℚ) / (((2000000000 : Int) : ℚ) / 1000000000)) / 2 ^ 50 ∧
    ((4 : Int) ∣ 100 → Throughput 100 2000000000 = Throughput (attempted 4 100) 2000000000) ∧
    (¬ (4 : Int) ∣ 100 → attempted 4 100 < 100)) :=
  ⟨by decide, by decide, by decide,
    throughput_configured_total 4 100 2000000000 (by decide) (by decide) (by decide)⟩

/-! ## Samples and average after a status-code rejection or a transport error -/

/-- C3 at a failing input: one GET request answered with status 500 in 7 ns. Its
duration stays in `responseTimes` although the request ends as a failure, so the
sample sequence has one element and `successCount` is 0. -/
theorem responseTimes_keeps_rejected_request :
    (runRequests "GET" [{ err := false, status := 500, dur := 7 }] initStats).responseTimes = [7] ∧
    (runRequests "GET" [{ err := false, status := 500, dur := 7 }] initStats).successCount = 0 ∧
    (runRequests "GET" [{ err := false, status := 500, dur := 7 }] initStats).failCount = 1 ∧
    ((runRequests "GET" [{ err := false, status := 500, dur := 7 }]
        initStats).responseTimes.length : Int)
      ≠ (runRequests "GET" [{ err := false, status := 500, dur := 7 }] initStats).successCount := by
  decide

/-- C10 at a failing input: a GET request answered with status 200 in 10 ms followed by
one that fails in transport after 5 s. `totalTime` holds both durations, `successCount`
is 1, and the average (5.01 s) exceeds `maxTime` (10 ms). -/
theorem averageTime_exceeds_maxTime :
    (runRequests "GET" [{ err := false, status := 200, dur := 10000000 },
        { err := true, status := 0, dur := 5000000000 }] initStats).successCount = 1 ∧
    averageTime (runRequests "GET" [{ err := false, status := 200, dur := 10000000 },
        { err := true, status := 0, dur := 5000000000 }] initStats) = some 5010000000 ∧
    (runRequests "GET" [{ err := false, status := 200, dur := 10000000 },
        { err := true, status := 0, dur := 5000000000 }] initStats).minTime = 10000000 ∧
    (runRequests "GET" [{ err := false, status := 200, dur := 10000000 },
        { err := true, status := 0, dur := 5000000000 }] initStats).maxTime = 10000000 ∧
    ¬ ((5010000000 : Int) ≤
      (runRequests "GET" [{ err := false, status := 200, dur := 10000000 },
        { err := true, status := 0, dur := 5000000000 }] initStats).maxTime) := by
  decide

/-! ## Critical sections of one request -/

/-- Running the critical sections of a request one after the other is the loop body. -/
theorem handleRequest_eq_sections (httpMethod : String) (o : Outcome) (s : Stats) :
    handleRequest httpMethod o s
      = (requestSections httpMethod o).foldl (fun acc sec => sec.run acc) s := by
  unfold handleRequest requestSections
  by_cases hg : httpMethod = "GET"
  · have hp : ¬ httpMethod = "POST" := by rw [hg]; decide
    cases he : o.err <;> by_cases h200 : o.status = StatusOK <;>
      simp [he, hg, h200, CriticalSection.run]
  · by_cases hp : httpMethod = "POST"
    · cases he : o.err <;> by_cases h200 : o.status = StatusOK <;>
        by_cases h201 : o.status = StatusCreated <;>
        simp [he, hg, hp, h200, h201, CriticalSection.run]
    · cases he : o.err <;> simp [he, hg, hp, CriticalSection.run]

theorem classifications_requestSections (httpMethod : String) (o : Outcome) :
    classifications (requestSections httpMethod o) = 1 := by
  unfold classifications requestSections
  cases he : o.err
  · by_cases h1 : httpMethod = "GET" ∧ o.status ≠ StatusOK <;>
      by_cases h2 : httpMethod = "POST" ∧ (o.status ≠ StatusOK ∧ o.status ≠ StatusCreated) <;>
      simp [he, h1, h2, List.countP_cons, CriticalSection.classifies]
  · simp [he, List.countP_cons, CriticalSection.classifies]

theorem classifications_workerProgram (httpMethod : String) (outcomes : List Outcome) :
    classifications (workerProgram httpMethod outcomes) = outcomes.length := by
  induction outcomes with
  | nil => rfl
  | cons o os ih =>
      have hcons : workerProgram httpMethod (o :: os)
          = requestSections httpMethod o ++ workerProgram httpMethod os := by
        simp [workerProgram]
      have happ : classifications (requestSections httpMethod o ++ workerProgram httpMethod os)
          = classifications (requestSections httpMethod o)
            + classifications (workerProgram httpMethod os) := by
        simp [classifications, List.countP_append]
      rw [hcons, happ, classifications_requestSections, ih, List.length_cons]
      omega

theorem recorded_run (sec : CriticalSection) (s : Stats) :
    recorded (sec.run s) = recorded s + (if sec.classifies then 1 else 0) := by
  cases sec with
  | addTime d => simp [CriticalSection.run, CriticalSection.classifies, recorded]
  | countFail =>
      simp only [CriticalSection.run, CriticalSection.classifies, recorded, if_true]
      ring
  | countSuccess d =>
      simp only [CriticalSection.run, CriticalSection.classifies, recorded, if_true]
      split_ifs <;> simp only [] <;> omega
  | correct =>
      simp only [CriticalSection.run, CriticalSection.classifies, recorded]
      simp

/-! ## One scheduling step -/

theorem getElem?_set_some (ws : List Worker) (i j : Nat) (wk x : Worker)
    (h : (ws.set i wk)[j]? = some x) :
    (j = i ∧ x = wk) ∨ (j ≠ i ∧ ws[j]? = some x) := by
  rw [List.getElem?_set] at h
  by_cases hij : i = j
  · subst hij
    left
    rw [if_pos rfl] at h
    split_ifs at h with hlt
    exact ⟨rfl, (Option.some.inj h).symm⟩
  · rw [if_neg hij] at h
    exact Or.inr ⟨fun e => hij e.symm, h⟩

theorem getElem?_set_self (ws : List Worker) (i : Nat) (wk wk' : Worker)
    (h : ws[i]? = some wk) : (ws.set i wk')[i]? = some wk' := by
  obtain ⟨hlt, _⟩ := List.getElem?_eq_some.mp h
  rw [List.getElem?_set, if_pos rfl, if_pos hlt]

theorem sum_map_set (f : Worker → Nat) :
    ∀ (ws : List Worker) (i : Nat) (wk wk' : Worker), ws[i]? = some wk →
      ((ws.set i wk').map f).sum + f wk = (ws.map f).sum + f wk' := by
  intro ws
  induction ws with
  | nil =>
      intro i wk wk' h
      simp at h
  | cons a ws ih =>
      intro i wk wk' h
      cases i with
      | zero =>
          simp only [List.getElem?_cons_zero, Option.some.injEq] at h
          subst h
          simp only [List.set_cons_zero, List.map_cons, List.sum_cons]
          omega
      | succ i =>
          simp only [List.getElem?_cons_succ] at h
          have := ih i wk wk' h
          simp only [List.set_cons_succ, List.map_cons, List.sum_cons]
          omega

/-- The five ways a scheduling step can go: no move, `Lock`, read, write, `Unlock`. -/
theorem stepWorker_cases (i : Nat) (w : World) :
    (stepWorker i w = w ∧
      (w.workers[i]? = none ∨
        ∃ wk, w.workers[i]? = some wk ∧
          (wk.todo = [] ∨ (wk.phase = Phase.idle ∧ w.mutex ≠ none)))) ∨
    ∃ wk sec rest, w.workers[i]? = some wk ∧ wk.todo = sec :: rest ∧
      ((wk.phase = Phase.idle ∧ w.mutex = none ∧ stepWorker i w =
          { mutex := some i, shared := w.shared,
            workers := w.workers.set i ⟨Phase.locked, sec :: rest, wk.snap⟩ }) ∨
       (wk.phase = Phase.locked ∧ stepWorker i w =
          { mutex := w.mutex, shared := w.shared,
            workers := w.workers.set i ⟨Phase.loaded, sec :: rest, w.shared⟩ }) ∨
       (wk.phase = Phase.loaded ∧ stepWorker i w =
          { mutex := w.mutex, shared := sec.run wk.snap,
            workers := w.workers.set i ⟨Phase.stored, sec :: rest, wk.snap⟩ }) ∨
       (wk.phase = Phase.stored ∧ stepWorker i w =
          { mutex := none, shared := w.shared,
            workers := w.workers.set i ⟨Phase.idle, rest, wk.snap⟩ })) := by
  unfold stepWorker
  cases hw : w.workers[i]? with
  | none => exact Or.inl ⟨rfl, Or.inl rfl⟩
  | some wk =>
      obtain ⟨phase, todo, snap⟩ := wk
      cases todo with
      | nil => exact Or.inl ⟨rfl, Or.inr ⟨_, rfl, Or.inl rfl⟩⟩
      | cons sec rest =>
          cases phase with
          | idle =>
              by_cases hm : w.mutex = none
              · right
                refine ⟨_, sec, rest, rfl, rfl, Or.inl ⟨rfl, hm, ?_⟩⟩
                simp [hm]
              · left
                exact ⟨by simp [hm], Or.inr ⟨_, rfl, Or.inr ⟨rfl, hm⟩⟩⟩
          | locked =>
              right
              exact ⟨_, sec, rest, rfl, rfl, Or.inr (Or.inl ⟨rfl, rfl⟩)⟩
          | loaded =>
              right
              exact ⟨_, sec, rest, rfl, rfl, Or.inr (Or.inr (Or.inl ⟨rfl, rfl⟩))⟩
          | stored =>
              right
              exact ⟨_, sec, rest, rfl, rfl, Or.inr (Or.inr (Or.inr ⟨rfl, rfl⟩))⟩

/-! ## The mutex discipline is preserved -/

theorem MutexInv_step (i : Nat) (w : World) (inv : MutexInv w) : MutexInv (stepWorker i w) := by
  rcases stepWorker_cases i w with ⟨h, _⟩ | ⟨wk, sec, rest, hw, ht, hcase⟩
  · rw [h]; exact inv
  · rcases hcase with ⟨hp, hm, e⟩ | ⟨hp, e⟩ | ⟨hp, e⟩ | ⟨hp, e⟩
    · -- Lock
      rw [e]
      refine ⟨?_, ?_, ?_⟩
      · intro j x hx hph
        rcases getElem?_set_some _ _ _ _ _ hx with ⟨rfl, rfl⟩ | ⟨_, hx'⟩
        · exact ⟨rfl, by simp⟩
        · have := (inv.holder j x hx' hph).1
          rw [hm] at this
          cases this
      · intro j x hx hph
        rcases getElem?_set_some _ _ _ _ _ hx with ⟨rfl, rfl⟩ | ⟨_, hx'⟩
        · cases hph
        · exact inv.fresh j x hx' hph
      · intro j hj
        have hji : i = j := Option.some.inj hj
        subst hji
        exact ⟨_, getElem?_set_self _ _ _ _ hw, by simp⟩
    · -- read
      have hmi : w.mutex = some i := (inv.holder i wk hw (by rw [hp]; simp)).1
      rw [e]
      refine ⟨?_, ?_, ?_⟩
      · intro j x hx hph
        rcases getElem?_set_some _ _ _ _ _ hx with ⟨rfl, rfl⟩ | ⟨_, hx'⟩
        · exact ⟨hmi, by simp⟩
        · exact inv.holder j x hx' hph
      · intro j x hx hph
        rcases getElem?_set_some _ _ _ _ _ hx with ⟨rfl, rfl⟩ | ⟨_, hx'⟩
        · rfl
        · exact inv.fresh j x hx' hph
      · intro j hj
        have hji : i = j := Option.some.inj (hmi.symm.trans hj)
        subst hji
        exact ⟨_, getElem?_set_self _ _ _ _ hw, by simp⟩
    · -- write
      have hmi : w.mutex = some i := (inv.holder i wk hw (by rw [hp]; simp)).1
      rw [e]
      refine ⟨?_, ?_, ?_⟩
      · intro j x hx hph
        rcases getElem?_set_some _ _ _ _ _ hx with ⟨rfl, rfl⟩ | ⟨_, hx'⟩
        · exact ⟨hmi, by simp⟩
        · exact inv.holder j x hx' hph
      · intro j x hx hph
        rcases getElem?_set_some _ _ _ _ _ hx with ⟨rfl, rfl⟩ | ⟨hne, hx'⟩
        · cases hph
        · have hmj := (inv.holder j x hx' (by rw [hph]; simp)).1
          exact absurd (Option.some.inj (hmj.symm.trans hmi)) hne
      · intro j hj
        have hji : i = j := Option.some.inj (hmi.symm.trans hj)
        subst hji
        exact ⟨_, getElem?_set_self _ _ _ _ hw, by simp⟩
    · -- Unlock
      have hmi : w.mutex = some i := (inv.holder i wk hw (by rw [hp]; simp)).1
      rw [e]
      refine ⟨?_, ?_, ?_⟩
      · intro j x hx hph
        rcases getElem?_set_some _ _ _ _ _ hx with ⟨rfl, rfl⟩ | ⟨hne, hx'⟩
        · exact absurd rfl hph
        · have hmj := (inv.holder j x hx' hph).1
          exact absurd (Option.some.inj (hmj.symm.trans hmi)) hne
      · intro j x hx hph
        rcases getElem?_set_some _ _ _ _ _ hx with ⟨rfl, rfl⟩ | ⟨_, hx'⟩
        · cases hph
        · exact inv.fresh j x hx' hph
      · intro j hj
        cases hj

theorem MutexInv_runSchedule (sched : List Nat) :
    ∀ w : World, MutexInv w → MutexInv (runSchedule sched w) := by
  induction sched with
  | nil => intro w inv; exact inv
  | cons i sched ih =>
      intro w inv
      exact ih (stepWorker i w) (MutexInv_step i w inv)

/-! ## No classification is lost or counted twice -/

theorem recorded_step (i : Nat) (w : World) (inv : MutexInv w) :
    recorded (stepWorker i w).shared + (pendingAll (stepWorker i w) : Int)
      = recorded w.shared + (pendingAll w : Int) := by
  rcases stepWorker_cases i w with ⟨h, _⟩ | ⟨wk, sec, rest, hw, ht, hcase⟩
  · rw [h]
  · obtain ⟨phase, todo, snap⟩ := wk
    simp only at ht
    subst ht
    rcases hcase with ⟨hp, _, e⟩ | ⟨hp, e⟩ | ⟨hp, e⟩ | ⟨hp, e⟩
    · simp only at hp
      subst hp
      have := sum_map_set Worker.pending w.workers i _ ⟨Phase.locked, sec :: rest, snap⟩ hw
      rw [e]
      simp only [pendingAll, Worker.pending] at this ⊢
      omega
    · simp only at hp
      subst hp
      have := sum_map_set Worker.pending w.workers i _ ⟨Phase.loaded, sec :: rest, w.shared⟩ hw
      rw [e]
      simp only [pendingAll, Worker.pending] at this ⊢
      omega
    · simp only at hp
      subst hp
      have hsnap : snap = w.shared := inv.fresh i _ hw rfl
      subst hsnap
      have := sum_map_set Worker.pending w.workers i _ ⟨Phase.stored, sec :: rest, w.shared⟩ hw
      have hrun := recorded_run sec w.shared
      rw [e]
      simp only [pendingAll, Worker.pending, List.tail_cons, classifications,
        List.countP_cons] at this ⊢
      rw [hrun]
      split_ifs at this ⊢ <;> omega
    · simp only at hp
      subst hp
      have := sum_map_set Worker.pending w.workers i _ ⟨Phase.idle, rest, snap⟩ hw
      rw [e]
      simp only [pendingAll, Worker.pending, List.tail_cons] at this ⊢
      omega

theorem recorded_runSchedule (sched : List Nat) :
    ∀ w : World, MutexInv w →
      recorded (runSchedule sched w).shared + (pendingAll (runSchedule sched w) : Int)
        = recorded w.shared + (pendingAll w : Int) := by
  induction sched with
  | nil => intro w _; rfl
  | cons i sched ih =>
      intro w inv
      have h1 := ih (stepWorker i w) (MutexInv_step i w inv)
      have h2 := recorded_step i w inv
      simp only [runSchedule, List.foldl_cons] at h1 ⊢
      omega

theorem pendingAll_of_finished (w : World) (h : finished w = true) : pendingAll w = 0 := by
  unfold finished at h
  unfold pendingAll
  rw [List.all_eq_true] at h
  apply List.sum_eq_zero
  intro n hn
  obtain ⟨wk, hwk, rfl⟩ := List.mem_map.mp hn
  have hnil : wk.todo = [] := List.isEmpty_iff.mp (h wk hwk)
  unfold Worker.pending
  rw [hnil]
  cases wk.phase <;> rfl

/-! ## Some worker can always move: every run can be completed -/

theorem stepsLeft_step (i : Nat) (w : World) :
    stepsLeft (stepWorker i w) < stepsLeft w ∨
      (w.workers[i]? = none ∨
        ∃ wk, w.workers[i]? = some wk ∧
          (wk.todo = [] ∨ (wk.phase = Phase.idle ∧ w.mutex ≠ none))) := by
  rcases stepWorker_cases i w with ⟨_, h⟩ | ⟨wk, sec, rest, hw, ht, hcase⟩
  · exact Or.inr h
  · left
    obtain ⟨phase, todo, snap⟩ := wk
    simp only at ht
    subst ht
    rcases hcase with ⟨hp, _, e⟩ | ⟨hp, e⟩ | ⟨hp, e⟩ | ⟨hp, e⟩
    · simp only at hp
      subst hp
      have := sum_map_set Worker.stepsLeft w.workers i _ ⟨Phase.locked, sec :: rest, snap⟩ hw
      rw [e]
      simp only [stepsLeft, Worker.stepsLeft, Phase.rank, List.length_cons] at this ⊢
      omega
    · simp only at hp
      subst hp
      have := sum_map_set Worker.stepsLeft w.workers i _
        ⟨Phase.loaded, sec :: rest, w.shared⟩ hw
      rw [e]
      simp only [stepsLeft, Worker.stepsLeft, Phase.rank, List.length_cons] at this ⊢
      omega
    · simp only at hp
      subst hp
      have := sum_map_set Worker.stepsLeft w.workers i _ ⟨Phase.stored, sec :: rest, snap⟩ hw
      rw [e]
      simp only [stepsLeft, Worker.stepsLeft, Phase.rank, List.length_cons] at this ⊢
      omega
    · simp only at hp
      subst hp
      have := sum_map_set Worker.stepsLeft w.workers i _ ⟨Phase.idle, rest, snap⟩ hw
      rw [e]
      simp only [stepsLeft, Worker.stepsLeft, Phase.rank, List.length_cons] at this ⊢
      omega

theorem exists_progress (w : World) (inv : MutexInv w) (hnf : finished w = false) :
    ∃ i, stepsLeft (stepWorker i w) < stepsLeft w := by
  have hex : ∃ wk ∈ w.workers, wk.todo ≠ [] := by
    by_contra hcon
    push_neg at hcon
    have : finished w = true := by
      unfold finished
      rw [List.all_eq_true]
      intro wk hwk
      exact List.isEmpty_iff.mpr (hcon wk hwk)
    rw [this] at hnf
    cases hnf
  obtain ⟨wk, hmem, htodo⟩ := hex
  obtain ⟨j, hj⟩ := List.mem_iff_getElem?.mp hmem
  cases hm : w.mutex with
  | none =>
      refine ⟨j, ?_⟩
      rcases stepsLeft_step j w with h | h | ⟨x, hx, h | ⟨_, h⟩⟩
      · exact h
      · rw [hj] at h
        cases h
      · rw [hj] at hx
        cases hx
        exact absurd h htodo
      · exact absurd hm h
  | some i =>
      obtain ⟨x, hx, hph⟩ := inv.held i hm
      refine ⟨i, ?_⟩
      rcases stepsLeft_step i w with h | h | ⟨y, hy, h | ⟨h, _⟩⟩
      · exact h
      · rw [hx] at h
        cases h
      · rw [hx] at hy
        cases hy
        exact absurd h (inv.holder i x hx hph).2
      · rw [hx] at hy
        cases hy
        exact absurd h hph

theorem exists_finishing_schedule (k : Nat) :
    ∀ w : World, MutexInv w → stepsLeft w ≤ k →
      ∃ sched, finished (runSchedule sched w) = true := by
  induction k with
  | zero =>
      intro w inv hk
      cases hf : finished w with
      | true => exact ⟨[], hf⟩
      | false =>
          obtain ⟨i, hi⟩ := exists_progress w inv hf
          omega
  | succ k ih =>
      intro w inv hk
      cases hf : finished w with
      | true => exact ⟨[], hf⟩
      | false =>
          obtain ⟨i, hi⟩ := exists_progress w inv hf
          obtain ⟨sched, hs⟩ := ih (stepWorker i w) (MutexInv_step i w inv) (by omega)
          exact ⟨i :: sched, hs⟩

theorem runSchedule_append (s1 s2 : List Nat) (w : World) :
    runSchedule (s1 ++ s2) w = runSchedule s2 (runSchedule s1 w) := by
  simp [runSchedule, List.foldl_append]

/-! ## The state after the `go` statements -/

theorem MutexInv_spawn (httpMethod : String) (outcomes : List (List Outcome)) (s : Stats) :
    MutexInv (spawn httpMethod outcomes s) := by
  refine ⟨?_, ?_, ?_⟩
  · intro i wk hwk hph
    have hmem := List.getElem?_mem hwk
    simp only [spawn, List.mem_map] at hmem
    obtain ⟨os, _, rfl⟩ := hmem
    exact absurd rfl hph
  · intro i wk hwk hph
    have hmem := List.getElem?_mem hwk
    simp only [spawn, List.mem_map] at hmem
    obtain ⟨os, _, rfl⟩ := hmem
    cases hph
  · intro i hi
    cases hi

theorem pendingAll_spawn (httpMethod : String) (s : Stats) (M : Nat) :
    ∀ outcomes : List (List Outcome), (∀ os ∈ outcomes, os.length = M) →
      pendingAll (spawn httpMethod outcomes s) = outcomes.length * M := by
  intro outcomes
  induction outcomes with
  | nil => intro _; simp [pendingAll, spawn]
  | cons os rest ih =>
      intro h
      have h1 : os.length = M := h os (List.mem_cons_self _ _)
      have h2 := ih (fun x hx => h x (List.mem_cons_of_mem _ hx))
      simp only [pendingAll, spawn, List.map_cons, List.sum_cons, Worker.pending,
        classifications_workerProgram, List.length_cons] at h2 ⊢
      rw [h2, h1]
      ring

/-- Every run of workers that record `M` outcomes each can be completed, and a completed
run has recorded `M` outcomes per worker on top of what was recorded before. -/
theorem recorded_spawn (httpMethod : String) (outcomes : List (List Outcome)) (s : Stats)
    (M : Nat) (hM : ∀ os ∈ outcomes, os.length = M) (sched : List Nat) :
    (∃ more, finished (runSchedule (sched ++ more) (spawn httpMethod outcomes s)) = true) ∧
    (finished (runSchedule sched (spawn httpMethod outcomes s)) = true →
      recorded (runSchedule sched (spawn httpMethod outcomes s)).shared
        = recorded s + ((outcomes.length * M : Nat) : Int)) := by
  have inv := MutexInv_spawn httpMethod outcomes s
  constructor
  · have inv' := MutexInv_runSchedule sched _ inv
    obtain ⟨more, hmore⟩ := exists_finishing_schedule _ _ inv' le_rfl
    exact ⟨more, by rw [runSchedule_append]; exact hmore⟩
  · intro hfin
    have h1 := recorded_runSchedule sched _ inv
    rw [pendingAll_of_finished _ hfin, pendingAll_spawn httpMethod s M outcomes hM] at h1
    have hs : (spawn httpMethod outcomes s).shared = s := rfl
    rw [hs] at h1
    simpa using h1

theorem recorded_foldl_run (l : List CriticalSection) :
    ∀ s : Stats, recorded (l.foldl (fun acc sec => sec.run acc) s)
      = recorded s + (classifications l : Int) := by
  induction l with
  | nil => intro s; simp [classifications]
  | cons sec rest ih =>
      intro s
      rw [List.foldl_cons, ih, recorded_run]
      simp only [classifications, List.countP_cons]
      cases sec.classifies
      · simp
      · simp
        omega

theorem recorded_handleRequest (httpMethod : String) (o : Outcome) (s : Stats) :
    recorded (handleRequest httpMethod o s) = recorded s + 1 := by
  rw [handleRequest_eq_sections, recorded_foldl_run, classifications_requestSections]
  rfl

/-! ## The counters after the run -/

/-- C1: for positive concurrency and totalRequests and any outcomes of the requests, every
run of the worker goroutines can be completed, and once all workers have left their loops
`successCount + failCount` is `concurrency * (totalRequests / concurrency)` with truncating
division; one request moves the sum of the two counters by exactly one. -/
theorem counters_sum_to_attempted (concurrency totalRequests : Int) (hc : 0 < concurrency)
    (ht : 0 < totalRequests) (httpMethod : String) (outcome : Nat → Nat → Outcome)
    (sched : List Nat) :
    (∃ more, finished (runSchedule (sched ++ more)
        (mainWorld concurrency totalRequests httpMethod outcome)) = true) ∧
    (finished (runSchedule sched
        (mainWorld concurrency totalRequests httpMethod outcome)) = true →
      (runSchedule sched (mainWorld concurrency totalRequests httpMethod outcome)).shared.successCount
        + (runSchedule sched
            (mainWorld concurrency totalRequests httpMethod outcome)).shared.failCount
        = concurrency * Int.tdiv totalRequests concurrency) ∧
    (∀ (o : Outcome) (s : Stats),
      (handleRequest httpMethod o s).successCount + (handleRequest httpMethod o s).failCount
        = s.successCount + s.failCount + 1) := by
  have hq : 0 ≤ Int.tdiv totalRequests concurrency := by
    rw [Int.tdiv_eq_ediv (le_of_lt ht) (le_of_lt hc)]
    exact Int.ediv_nonneg (le_of_lt ht) (le_of_lt hc)
  have hM : ∀ os ∈ (List.range concurrency.toNat).map
      (fun i => (List.range (reqPerGoroutine totalRequests concurrency).toNat).map (outcome i)),
      os.length = (reqPerGoroutine totalRequests concurrency).toNat := by
    intro os hos
    obtain ⟨i, _, rfl⟩ := List.mem_map.mp hos
    simp
  obtain ⟨hex, hfin⟩ := recorded_spawn httpMethod _ initStats _ hM sched
  refine ⟨hex, ?_, fun o s => recorded_handleRequest httpMethod o s⟩
  intro h
  have h1 := hfin h
  have h0 : recorded initStats = 0 := rfl
  rw [h0] at h1
  simp only [List.length_map, List.length_range, Nat.cast_mul, reqPerGoroutine,
    Int.toNat_of_nonneg (le_of_lt hc), Int.toNat_of_nonneg hq, zero_add] at h1
  exact h1

theorem counters_sum_to_attempted_witness :
    (0 : Int) < 3 ∧ (0 : Int) < 7 ∧
    ((∃ more, finished (runSchedule ([0, 1, 0, 2] ++ more)
        (mainWorld 3 7 "GET" (fun _ _ => { err := false, status := 200, dur := 5 }))) = true) ∧
    (finished (runSchedule [0, 1, 0, 2]
        (mainWorld 3 7 "GET" (fun _ _ => { err := false, status := 200, dur := 5 }))) = true →
      (runSchedule [0, 1, 0, 2]
          (mainWorld 3 7 "GET"
            (fun _ _ => { err := false, status := 200, dur := 5 }))).shared.successCount
        + (runSchedule [0, 1, 0, 2]
            (mainWorld 3 7 "GET"
              (fun _ _ => { err := false, status := 200, dur := 5 }))).shared.failCount
        = 3 * Int.tdiv 7 3) ∧
    (∀ (o : Outcome) (s : Stats),
      (handleRequest "GET" o s).successCount + (handleRequest "GET" o s).failCount
        = s.successCount + s.failCount + 1)) :=
  ⟨by decide, by decide,
    counters_sum_to_attempted 3 7 (by decide) (by decide) "GET"
      (fun _ _ => { err := false, status := 200, dur := 5 }) [0, 1, 0, 2]⟩

/-- C9: N workers that each record M outcomes, scheduled in any order with every access
to the shared counters between `Lock` and `Unlock`: every run can be completed, and in
the final state `successCount + failCount = N * M`; no update is lost. -/
theorem no_lost_update (httpMethod : String) (N M : Nat) (outcomes : List (List Outcome))
    (hN : outcomes.length = N) (hM : ∀ os ∈ outcomes, os.length = M) (sched : List Nat) :
    (∃ more, finished (runSchedule (sched ++ more)
        (spawn httpMethod outcomes initStats)) = true) ∧
    (finished (runSchedule sched (spawn httpMethod outcomes initStats)) = true →
      (runSchedule sched (spawn httpMethod outcomes initStats)).shared.successCount
        + (runSchedule sched (spawn httpMethod outcomes initStats)).shared.failCount
        = (N : Int) * (M : Int)) := by
  obtain ⟨hex, hfin⟩ := recorded_spawn httpMethod outcomes initStats M hM sched
  refine ⟨hex, ?_⟩
  intro h
  have h1 := hfin h
  have h0 : recorded initStats = 0 := rfl
  rw [h0, hN] at h1
  simp only [Nat.cast_mul, zero_add] at h1
  exact h1

theorem no_lost_update_witness :
    ([[{ err := false, status := 200, dur := 5 }],
      [{ err := true, status := 0, dur := 9 }]] : List (List Outcome)).length = 2 ∧
    (∀ os ∈ ([[{ err := false, status := 200, dur := 5 }],
      [{ err := true, status := 0, dur := 9 }]] : List (List Outcome)), os.length = 1) ∧
    ((∃ more, finished (runSchedule ([0, 1, 0, 0, 0, 1, 1, 1] ++ more)
        (spawn "POST" [[{ err := false, status := 200, dur := 5 }],
          [{ err := true, status := 0, dur := 9 }]] initStats)) = true) ∧
    (finished (runSchedule [0, 1, 0, 0, 0, 1, 1, 1]
        (spawn "POST" [[{ err := false, status := 200, dur := 5 }],
          [{ err := true, status := 0, dur := 9 }]] initStats)) = true →
      (runSchedule [0, 1, 0, 0, 0, 1, 1, 1]
          (spawn "POST" [[{ err := false, status := 200, dur := 5 }],
            [{ err := true, status := 0, dur := 9 }]] initStats)).shared.successCount
        + (runSchedule [0, 1, 0, 0, 0, 1, 1, 1]
            (spawn "POST" [[{ err := false, status := 200, dur := 5 }],
              [{ err := true, status := 0, dur := 9 }]] initStats)).shared.failCount
        = ((2 : Nat) : Int) * ((1 : Nat) : Int))) :=
  ⟨rfl, by decide,
    no_lost_update "POST" 2 1
      [[{ err := false, status := 200, dur := 5 }], [{ err := true, status := 0, dur := 9 }]]
      rfl (by decide) [0, 1, 0, 0, 0, 1, 1, 1]⟩

end HttpBench
